import Mathlib

/-!
# Shallow embedding of the cannon-ball search program (`src/main.rs`)

Numeric model: `f64` values are idealised as exact rationals `ℚ`.  The
trigonometric functions do not map rationals to rationals, so the embedding is
parametric in a `Trig` oracle giving the exact cosine and sine of an angle;
theorems that depend on the launch angle constrain the oracle's values by the
sign facts that hold for the real functions on the relevant interval.  The
pseudo-random generator (`StdRng`) is modelled as the stream `ℕ → ℚ` of the
successive `gen::<f64>()` draws.  The sampling `while` loop of `simulate` is
modelled with explicit fuel; a `none` result ("fuel exhausted") corresponds to
a non-terminating run of the source loop, and termination within the chosen
fuel is proved below for every positive step size.
-/

namespace Balls

/-- `core::f64::consts::PI`: the exact rational value of the `f64` constant. -/
def PI : ℚ := 884279719003555 / 281474976710656

/-- The gravity constant `G = 9.81` from `simulate`. -/
def G : ℚ := 981 / 100

/-- Oracle for the exact values of cosine and sine at program angles
(`Radians::cos`, `Radians::sin`). -/
structure Trig where
  cos : ℚ → ℚ
  sin : ℚ → ℚ

/-- `struct FiringPlan { velocity, angle }`. -/
structure FiringPlan where
  velocity : ℚ
  angle : ℚ
deriving DecidableEq

/-- The conjunction of the assertions in `FiringPlan::new`:
`velocity > 0`, `angle > 0`, `angle < PI`. -/
def FiringPlan.newValid (velocity angle : ℚ) : Prop :=
  0 < velocity ∧ 0 < angle ∧ angle < PI

/-- `FiringPlan::new` (the record construction; the source `assert!`s
`newValid` first, which the mutation and random paths are meant to satisfy). -/
def FiringPlan.new (velocity angle : ℚ) : FiringPlan :=
  { velocity := velocity, angle := angle }

/-- The random stream: `StdRng` as the sequence of its `gen::<f64>()` draws. -/
def Rng : Type := ℕ → ℚ

/-- One `rng.gen::<f64>()` call: the drawn value and the advanced generator. -/
def next (g : Rng) : ℚ × Rng := (g 0, fun n => g (n + 1))

/-- The generator after `n` draws. -/
def advance (g : Rng) : ℕ → Rng
  | 0 => g
  | n + 1 => advance (next g).2 n

/-- `FiringPlan::random`: velocity `1 + gen()`, then angle `gen() * PI`. -/
def FiringPlan.random (g : Rng) : FiringPlan × Rng :=
  let u1 := next g
  let u2 := next u1.2
  (FiringPlan.new (1 + u1.1) (u2.1 * PI), u2.2)

/-- `FiringPlan::randoms`: `n` random plans, drawn in order. -/
def FiringPlan.randoms : ℕ → Rng → List FiringPlan × Rng
  | 0, g => ([], g)
  | n + 1, g =>
    let pg := FiringPlan.random g
    let rest := FiringPlan.randoms n pg.2
    (pg.1 :: rest.1, rest.2)

/-- `Metres::is_positive`: `self.0 > 0.0` (strict). -/
def isPositive (m : ℚ) : Bool := decide (0 < m)

/-- `struct Coordinates { x, y }`. -/
structure Coordinates where
  x : ℚ
  y : ℚ
deriving DecidableEq

/-- `struct Trajectory(Vec<Coordinates>)`. -/
structure Trajectory where
  path : List Coordinates
deriving DecidableEq

/-- `Trajectory::distance`: `x` of the last sample, `0` for an empty path. -/
def Trajectory.distance (tr : Trajectory) : ℚ :=
  ((tr.path.getLast?).map Coordinates.x).getD 0

/-- `struct Params`.  The `seed` field of the source is abstracted into the
`Rng` stream that models `StdRng::seed_from_u64(seed)`. -/
structure Params where
  wall_height : ℚ
  wall_distance : ℚ
  simulation_step_size : ℚ
  pop_size : ℕ
  num_evaluations : ℕ

/-- The `position` closure inside `simulate`. -/
def position (velocity cosTheta sinTheta t : ℚ) : Coordinates :=
  let vt := velocity * t
  { x := vt * cosTheta, y := vt * sinTheta - (1/2) * G * t * t }

/-- `t_at_wall = wall_distance / (velocity * cos_theta)`. -/
def tAtWall (T : Trig) (p : FiringPlan) (params : Params) : ℚ :=
  params.wall_distance / (p.velocity * T.cos p.angle)

/-- `coords_at_wall = position(t_at_wall)`. -/
def coordsAtWall (T : Trig) (p : FiringPlan) (params : Params) : Coordinates :=
  position p.velocity (T.cos p.angle) (T.sin p.angle) (tAtWall T p params)

/-- `did_hit_wall = coords_at_wall.y.is_positive() && coords_at_wall.y < wall_height`. -/
def didHitWall (T : Trig) (p : FiringPlan) (params : Params) : Bool :=
  isPositive (coordsAtWall T p params).y
    && decide ((coordsAtWall T p params).y < params.wall_height)

/-- The guard of the sampling `while` loop:
`t == 0.0 || (did_hit_wall && t < t_at_wall) || (!did_hit_wall && y.is_positive())`. -/
def loopCond (hit : Bool) (tW t y : ℚ) : Prop :=
  t = 0 ∨ (hit = true ∧ t < tW) ∨ (hit = false ∧ 0 < y)

instance loopCond.dec (hit : Bool) (tW t y : ℚ) : Decidable (loopCond hit tW t y) := by
  unfold loopCond; infer_instance

/-- The sampling loop of `simulate`, with explicit fuel.  A `none` result
(fuel exhausted while the guard still holds) models non-termination of the
source loop. -/
def buildPath (step : ℚ) (hit : Bool) (tW velocity cosTheta sinTheta : ℚ) :
    ℕ → ℚ → ℚ → Option (List Coordinates)
  | 0, t, y => if loopCond hit tW t y then none else some []
  | fuel + 1, t, y =>
    if loopCond hit tW t y then
      let t' := t + step
      let c := position velocity cosTheta sinTheta t'
      (buildPath step hit tW velocity cosTheta sinTheta fuel t' c.y).map (c :: ·)
    else
      some []

/-- Fuel for the loop: enough steps to pass both the wall time and the landing
time `2·v·sinθ/G`; proved sufficient below whenever the step size is positive. -/
def fuelFor (step tW tLand : ℚ) : ℕ :=
  (⌈tW / step⌉).toNat + (⌈tLand / step⌉).toNat + 2

/-- `simulate`. -/
def simulate (T : Trig) (p : FiringPlan) (params : Params) : Option Trajectory :=
  let cosTheta := T.cos p.angle
  let sinTheta := T.sin p.angle
  let step := params.simulation_step_size
  let tW := tAtWall T p params
  let hit := didHitWall T p params
  (buildPath step hit tW p.velocity cosTheta sinTheta
      (fuelFor step tW (2 * p.velocity * sinTheta / G)) 0 0).map Trajectory.mk

/-- `evaluate`: the fitness of the simulated trajectory. -/
def evaluate (T : Trig) (p : FiringPlan) (params : Params) : Option ℚ :=
  (simulate T p params).map Trajectory.distance

/-- `struct Individual { plan, fitness }`. -/
structure Individual where
  plan : FiringPlan
  fitness : ℚ
deriving DecidableEq

/-- One insertion step of the stable fitness-descending sort used to rank a
generation (`pop.sort_by` with the reversed comparator in `main`). -/
def insertRanked (ind : Individual) : List Individual → List Individual
  | [] => [ind]
  | b :: rest =>
    if b.fitness < ind.fitness then ind :: b :: rest else b :: insertRanked ind rest

/-- Rank a generation: stable sort, fitness descending. -/
def rank : List Individual → List Individual
  | [] => []
  | a :: rest => insertRanked a (rank rest)

/-- The `mutate` function nested in `main`. -/
def mutate (plan : FiringPlan) (g : Rng) : FiringPlan × Rng :=
  let u1 := next g
  let u2 := next u1.2
  (FiringPlan.new (max (plan.velocity + u1.1 - 1/2) (1/10))
      (min (max (plan.angle + u2.1 - 1/2) (1/10)) (PI / 2)), u2.2)

/-- Evaluate the whole population (building `pop` in `main`). -/
def evalPop (T : Trig) (params : Params) (ps : List FiringPlan) :
    Option (List Individual) :=
  ps.mapM fun plan => (evaluate T plan params).map fun f => ⟨plan, f⟩

/-- The write-back loop `for i in 0..pop_size { ps[i] = ... }`:
slots `0` and `1` keep the ranked plans, later slots mutate them in order. -/
def nextPlans : ℕ → List Individual → Rng → List FiringPlan × Rng
  | _, [], g => ([], g)
  | i, ind :: rest, g =>
    if i ≤ 1 then
      let tailg := nextPlans (i + 1) rest g
      (ind.plan :: tailg.1, tailg.2)
    else
      let pg := mutate ind.plan g
      let tailg := nextPlans (i + 1) rest pg.2
      (pg.1 :: tailg.1, tailg.2)

/-- The mutable state of `main`'s search loop.  `events` records the
`(generation, fitness)` pairs reported/persisted on each improvement. -/
structure OptState where
  plans : List FiringPlan
  best : ℚ
  events : List (ℕ × ℚ)
  rng : Rng

/-- One generation of `main`'s loop: evaluate, rank, update the best-ever
tracker (recording the event), refill the population. -/
def generationStep (T : Trig) (params : Params) (r : ℕ) (st : OptState) :
    Option OptState :=
  (evalPop T params st.plans).map fun pop =>
    let ranked := rank pop
    let be :=
      match ranked.head? with
      | some b =>
        if st.best < b.fitness then (b.fitness, st.events ++ [(r, b.fitness)])
        else (st.best, st.events)
      | none => (st.best, st.events)
    let pg := nextPlans 0 ranked st.rng
    ⟨pg.1, be.1, be.2, pg.2⟩

/-- Iterate `generationStep` over the given number of generations. -/
def runGens (T : Trig) (params : Params) : ℕ → ℕ → OptState → Option OptState
  | 0, _, st => some st
  | n + 1, r, st => (generationStep T params r st).bind (runGens T params n (r + 1))

/-- The state entering generation 0 of `main`. -/
def mainInit (g : Rng) (params : Params) : OptState :=
  let pg := FiringPlan.randoms params.pop_size g
  ⟨pg.1, 0, [], pg.2⟩

/-- The whole of `main` after parameter setup. -/
def mainRun (T : Trig) (params : Params) (g : Rng) : Option OptState :=
  runGens T params params.num_evaluations 0 (mainInit g params)

/-! ## Concrete instances used by counterexamples and witnesses -/

/-- Trig oracle for the launch angle `atan(4/3) ∈ (0, π/2)`:
cos = 3/5, sin = 4/5. -/
def Tpos : Trig := ⟨fun _ => 3/5, fun _ => 4/5⟩

/-- Trig oracle for the launch angle `π − atan(4/3) ∈ (π/2, π)`:
cos = −3/5, sin = 4/5. -/
def Tneg : Trig := ⟨fun _ => -(3/5), fun _ => 4/5⟩

/-- A concrete plan: unit velocity; the angle value is interpreted through the
accompanying trig oracle. -/
def planOne : FiringPlan := ⟨1, 1⟩

/-- A concrete random stream that always draws 1/2. -/
def rngHalf : Rng := fun _ => 1/2

/-- Concrete environment: wall height 25, wall distance 1, step size 1. -/
def baseParams : Params := ⟨25, 1, 1, 1, 1⟩

/-- Environment whose wall sits exactly where the ball returns to ground
level: `t_at_wall = 160/981` and `y(t_at_wall) = 0` exactly. -/
def c1Params : Params := ⟨25, 32/327, 1, 1, 1⟩

/-- Environment with a very near wall that the shot reaches while rising
(`y(t_at_wall) = 32/981 ∈ (0, 25)`), with a coarse step of 1. -/
def c2Params : Params := ⟨25, 16/327, 1, 1, 1⟩

/-- Environment where the wall is beyond the landing point and the step size
divides the landing time `160/981` exactly in two. -/
def c3Params : Params := ⟨25, 64/327, 80/981, 1, 1⟩

/-- Environment with `wall_distance = 0` (the degenerate input of the spec's
precondition discussion). -/
def c4Params : Params := ⟨25, 0, 1, 1, 1⟩

/-- Concrete optimiser state: three identical plans, fresh tracker. -/
def wSt : OptState := ⟨[planOne, planOne, planOne], 0, [], rngHalf⟩

/-- The trajectory of `planOne` under `Tpos`/`baseParams`: a single sample. -/
def trBase : Trajectory := ⟨[⟨3/5, -821/200⟩]⟩

/-- The `Individual` produced by evaluating `planOne` under
`Tpos`/`baseParams`. -/
def indOne : Individual := ⟨planOne, 3/5⟩

/-! ## Small-step evaluation lemmas for the sampling loop -/

lemma loopCond_false_iff (tW t y : ℚ) : loopCond false tW t y ↔ (t = 0 ∨ 0 < y) := by
  simp [loopCond]

lemma loopCond_true_iff (tW t y : ℚ) : loopCond true tW t y ↔ (t = 0 ∨ t < tW) := by
  simp [loopCond]

lemma buildPath_stop {step tW velocity cosTheta sinTheta : ℚ} {hit : Bool}
    (fuel : ℕ) {t y : ℚ} (h : ¬ loopCond hit tW t y) :
    buildPath step hit tW velocity cosTheta sinTheta fuel t y = some [] := by
  cases fuel <;> simp [buildPath, h]

lemma buildPath_go {step tW velocity cosTheta sinTheta : ℚ} {hit : Bool}
    (fuel : ℕ) {t y : ℚ} (h : loopCond hit tW t y) :
    buildPath step hit tW velocity cosTheta sinTheta (fuel + 1) t y =
      (buildPath step hit tW velocity cosTheta sinTheta fuel (t + step)
        (position velocity cosTheta sinTheta (t + step)).y).map
        ((position velocity cosTheta sinTheta (t + step)) :: ·) := by
  simp [buildPath, h]

lemma simulate_eq (T : Trig) (p : FiringPlan) (params : Params) :
    simulate T p params =
      (buildPath params.simulation_step_size (didHitWall T p params)
        (tAtWall T p params) p.velocity (T.cos p.angle) (T.sin p.angle)
        (fuelFor params.simulation_step_size (tAtWall T p params)
          (2 * p.velocity * T.sin p.angle / G)) 0 0).map Trajectory.mk := rfl

lemma fuelFor_succ (step tW tLand : ℚ) :
    fuelFor step tW tLand =
      ((⌈tW / step⌉).toNat + (⌈tLand / step⌉).toNat + 1) + 1 := by
  unfold fuelFor; omega

lemma fuelFor_succ_succ (step tW tLand : ℚ) :
    fuelFor step tW tLand =
      (((⌈tW / step⌉).toNat + (⌈tLand / step⌉).toNat) + 1) + 1 := by
  unfold fuelFor; omega

/-- A simulation whose guard fails at the very first sample records exactly
that sample. -/
lemma simulate_single (T : Trig) (p : FiringPlan) (params : Params)
    (h : ¬ loopCond (didHitWall T p params) (tAtWall T p params)
      (0 + params.simulation_step_size)
      ((position p.velocity (T.cos p.angle) (T.sin p.angle)
        (0 + params.simulation_step_size)).y)) :
    simulate T p params =
      some ⟨[position p.velocity (T.cos p.angle) (T.sin p.angle)
        (0 + params.simulation_step_size)]⟩ := by
  rw [simulate_eq, fuelFor_succ, buildPath_go _ (Or.inl rfl), buildPath_stop _ h]
  rfl

/-- A simulation whose guard holds at the first sample and fails at the second
records exactly those two samples. -/
lemma simulate_pair (T : Trig) (p : FiringPlan) (params : Params)
    (h1 : loopCond (didHitWall T p params) (tAtWall T p params)
      (0 + params.simulation_step_size)
      ((position p.velocity (T.cos p.angle) (T.sin p.angle)
        (0 + params.simulation_step_size)).y))
    (h2 : ¬ loopCond (didHitWall T p params) (tAtWall T p params)
      (0 + params.simulation_step_size + params.simulation_step_size)
      ((position p.velocity (T.cos p.angle) (T.sin p.angle)
        (0 + params.simulation_step_size + params.simulation_step_size)).y)) :
    simulate T p params =
      some ⟨[position p.velocity (T.cos p.angle) (T.sin p.angle)
          (0 + params.simulation_step_size),
        position p.velocity (T.cos p.angle) (T.sin p.angle)
          (0 + params.simulation_step_size + params.simulation_step_size)]⟩ := by
  rw [simulate_eq, fuelFor_succ_succ, buildPath_go _ (Or.inl rfl),
    buildPath_go _ h1, buildPath_stop _ h2]
  rfl

/-! ## Concrete evaluations -/

lemma coordsAtWall_base : (coordsAtWall Tpos planOne baseParams).y = -295/24 := by
  norm_num [coordsAtWall, tAtWall, position, Tpos, planOne, baseParams, G]

lemma didHitWall_base : didHitWall Tpos planOne baseParams = false := by
  rw [didHitWall, coordsAtWall_base, isPositive,
    decide_eq_false (by norm_num : ¬ (0:ℚ) < -295/24), Bool.false_and]

lemma simulate_base : simulate Tpos planOne baseParams = some trBase := by
  have h := simulate_single Tpos planOne baseParams ?_
  · rw [h]
    norm_num [position, Tpos, planOne, baseParams, trBase, G]
  · rw [didHitWall_base]
    rw [loopCond_false_iff]
    norm_num [position, Tpos, planOne, baseParams, G]

lemma coordsAtWall_c1 : (coordsAtWall Tpos planOne c1Params).y = 0 := by
  norm_num [coordsAtWall, tAtWall, position, Tpos, planOne, c1Params, G]

lemma didHitWall_c1 : didHitWall Tpos planOne c1Params = false := by
  rw [didHitWall, coordsAtWall_c1, isPositive,
    decide_eq_false (lt_irrefl (0:ℚ)), Bool.false_and]

lemma coordsAtWall_c2 : (coordsAtWall Tpos planOne c2Params).y = 32/981 := by
  norm_num [coordsAtWall, tAtWall, position, Tpos, planOne, c2Params, G]

lemma didHitWall_c2 : didHitWall Tpos planOne c2Params = true := by
  rw [didHitWall, coordsAtWall_c2, isPositive,
    decide_eq_true (by norm_num : (0:ℚ) < 32/981),
    decide_eq_true (by norm_num [c2Params] : (32/981 : ℚ) < c2Params.wall_height),
    Bool.and_self]

lemma tAtWall_c2 : tAtWall Tpos planOne c2Params = 80/981 := by
  norm_num [tAtWall, Tpos, planOne, c2Params]

lemma simulate_c2 : simulate Tpos planOne c2Params = some ⟨[⟨3/5, -821/200⟩]⟩ := by
  have h := simulate_single Tpos planOne c2Params ?_
  · rw [h]
    norm_num [position, Tpos, planOne, c2Params, G]
  · rw [didHitWall_c2, tAtWall_c2, loopCond_true_iff]
    norm_num [c2Params]

lemma coordsAtWall_c3 : (coordsAtWall Tpos planOne c3Params).y = -256/981 := by
  norm_num [coordsAtWall, tAtWall, position, Tpos, planOne, c3Params, G]

lemma didHitWall_c3 : didHitWall Tpos planOne c3Params = false := by
  rw [didHitWall, coordsAtWall_c3, isPositive,
    decide_eq_false (by norm_num : ¬ (0:ℚ) < -256/981), Bool.false_and]

lemma simulate_c3 :
    simulate Tpos planOne c3Params = some ⟨[⟨16/327, 32/981⟩, ⟨32/327, 0⟩]⟩ := by
  have h := simulate_pair Tpos planOne c3Params ?_ ?_
  · rw [h]
    norm_num [position, Tpos, planOne, c3Params, G]
  · rw [didHitWall_c3, loopCond_false_iff]
    norm_num [position, Tpos, planOne, c3Params, G]
  · rw [didHitWall_c3, loopCond_false_iff]
    norm_num [position, Tpos, planOne, c3Params, G]

lemma coordsAtWall_c4 : (coordsAtWall Tpos planOne c4Params).y = 0 := by
  norm_num [coordsAtWall, tAtWall, position, Tpos, planOne, c4Params, G]

lemma didHitWall_c4 : didHitWall Tpos planOne c4Params = false := by
  rw [didHitWall, coordsAtWall_c4, isPositive,
    decide_eq_false (lt_irrefl (0:ℚ)), Bool.false_and]

lemma simulate_c4 : simulate Tpos planOne c4Params = some trBase := by
  have h := simulate_single Tpos planOne c4Params ?_
  · rw [h]
    norm_num [position, Tpos, planOne, c4Params, trBase, G]
  · rw [didHitWall_c4, loopCond_false_iff]
    norm_num [position, Tpos, planOne, c4Params, G]

/-! ## General facts about the sampling loop -/

lemma position_y_zero (velocity cosTheta sinTheta : ℚ) :
    (position velocity cosTheta sinTheta 0).y = 0 := by
  simp [position]

lemma position_y_eq (velocity cosTheta sinTheta t : ℚ) :
    (position velocity cosTheta sinTheta t).y
      = t * (velocity * sinTheta) - (1/2) * G * t * t := by
  simp [position]; ring

/-- Full characterisation of a successful loop run started at time `t`:
the `j`-th sample is the closed-form position at time `t + (j+1)·step`, the
guard held at every visited state, and failed at the final state. -/
lemma buildPath_spec (step tW velocity cosTheta sinTheta : ℚ) (hit : Bool) :
    ∀ (fuel : ℕ) (t y : ℚ) (l : List Coordinates),
      y = (position velocity cosTheta sinTheta t).y →
      buildPath step hit tW velocity cosTheta sinTheta fuel t y = some l →
      (∀ j (hj : j < l.length),
          l.get ⟨j, hj⟩ =
            position velocity cosTheta sinTheta (t + ((j + 1 : ℕ) : ℚ) * step)) ∧
      (∀ j, j < l.length →
          loopCond hit tW (t + (j : ℚ) * step)
            ((position velocity cosTheta sinTheta (t + (j : ℚ) * step)).y)) ∧
      ¬ loopCond hit tW (t + ((l.length : ℕ) : ℚ) * step)
          ((position velocity cosTheta sinTheta (t + ((l.length : ℕ) : ℚ) * step)).y) := by
  intro fuel
  induction fuel with
  | zero =>
    intro t y l hy h
    subst hy
    by_cases hc : loopCond hit tW t ((position velocity cosTheta sinTheta t).y)
    · rw [buildPath, if_pos hc] at h
      exact absurd h (by simp)
    · rw [buildPath, if_neg hc] at h
      have hl : ([] : List Coordinates) = l := Option.some.inj h
      subst hl
      refine ⟨?_, ?_, ?_⟩
      · intro j hj; simp at hj
      · intro j hj; simp at hj
      · simpa using hc
  | succ fuel ih =>
    intro t y l hy h
    subst hy
    by_cases hc : loopCond hit tW t ((position velocity cosTheta sinTheta t).y)
    · rw [buildPath_go _ hc] at h
      obtain ⟨l', hl', rfl⟩ := Option.map_eq_some'.mp h
      obtain ⟨A, B, C⟩ := ih (t + step) _ l' rfl hl'
      have harg : ∀ k : ℕ, t + step + (k : ℚ) * step = t + ((k + 1 : ℕ) : ℚ) * step := by
        intro k; push_cast; ring
      refine ⟨?_, ?_, ?_⟩
      · intro j hj
        cases j with
        | zero =>
          show position velocity cosTheta sinTheta (t + step) = _
          congr 1
          push_cast; ring
        | succ k =>
          have hk : k < l'.length := by simpa using hj
          show l'.get ⟨k, hk⟩ = _
          rw [A k hk]
          congr 1
          push_cast; ring
      · intro j hj
        cases j with
        | zero => simpa using hc
        | succ k =>
          have hk : k < l'.length := by simpa using hj
          have hB := B k hk
          rw [harg k] at hB
          exact_mod_cast hB
      · have hC := C
        rw [harg l'.length] at hC
        simpa using hC
    · rw [buildPath_stop _ hc] at h
      have hl : ([] : List Coordinates) = l := Option.some.inj h
      subst hl
      refine ⟨?_, ?_, ?_⟩
      · intro j hj; simp at hj
      · intro j hj; simp at hj
      · simpa using hc

lemma ceil_toNat_decrease {a step : ℚ} (hstep : 0 < step) (h : 0 < a) :
    (⌈(a - step) / step⌉).toNat < (⌈a / step⌉).toNat := by
  have h1 : (1:ℤ) ≤ ⌈a / step⌉ := Int.ceil_pos.mpr (div_pos h hstep)
  have h2 : ⌈(a - step) / step⌉ = ⌈a / step⌉ - 1 := by
    rw [sub_div, div_self (ne_of_gt hstep)]
    exact_mod_cast Int.ceil_sub_int (a / step) 1
  omega

lemma ceil_toNat_mono {a b step : ℚ} (hstep : 0 < step) (h : a ≤ b) :
    (⌈a / step⌉).toNat ≤ (⌈b / step⌉).toNat := by
  have hd : a / step ≤ b / step := by gcongr
  have := Int.ceil_le_ceil hd
  omega

/-- Termination of the loop: given any bound `S` past which the guard cannot
hold, fuel covering `⌈S/step⌉` steps suffices. -/
lemma buildPath_total_aux (step tW velocity cosTheta sinTheta S : ℚ) (hit : Bool)
    (hstep : 0 < step)
    (hS : ∀ t : ℚ, 0 < t →
      loopCond hit tW t ((position velocity cosTheta sinTheta t).y) → t < S) :
    ∀ (fuel : ℕ) (t y : ℚ), 0 ≤ t →
      y = (position velocity cosTheta sinTheta t).y →
      (t = 0 → (⌈S / step⌉).toNat + 2 ≤ fuel) →
      (0 < t → (⌈(S - t) / step⌉).toNat + 1 ≤ fuel) →
      ∃ l, buildPath step hit tW velocity cosTheta sinTheta fuel t y = some l := by
  intro fuel
  induction fuel with
  | zero =>
    intro t y ht hy h0 h1
    rcases eq_or_lt_of_le ht with h | h
    · exact absurd (h0 h.symm) (by omega)
    · exact absurd (h1 h) (by omega)
  | succ fuel ih =>
    intro t y ht hy h0 h1
    subst hy
    by_cases hc : loopCond hit tW t ((position velocity cosTheta sinTheta t).y)
    · have ht' : (0:ℚ) < t + step := by
        rcases eq_or_lt_of_le ht with h | h
        · rw [← h, zero_add]; exact hstep
        · linarith
      have hrec : (⌈(S - (t + step)) / step⌉).toNat + 1 ≤ fuel := by
        rcases eq_or_lt_of_le ht with h | h
        · have hf := h0 h.symm
          have hmono : (⌈(S - (t + step)) / step⌉).toNat ≤ (⌈S / step⌉).toNat := by
            apply ceil_toNat_mono hstep
            nlinarith
          omega
        · have hf := h1 h
          have hlt : t < S := hS t h hc
          have hdec : (⌈(S - (t + step)) / step⌉).toNat < (⌈(S - t) / step⌉).toNat := by
            have harg : S - (t + step) = (S - t) - step := by ring
            rw [harg]
            exact ceil_toNat_decrease hstep (by linarith)
          omega
      obtain ⟨l', hl'⟩ := ih (t + step) _ (le_of_lt ht') rfl
        (fun h' => absurd h' (ne_of_gt ht')) (fun _ => hrec)
      refine ⟨position velocity cosTheta sinTheta (t + step) :: l', ?_⟩
      rw [buildPath_go _ hc, hl']
      rfl
    · exact ⟨[], buildPath_stop _ hc⟩

/-- `simulate` terminates (returns a trajectory) for every positive step size. -/
lemma simulate_total (T : Trig) (p : FiringPlan) (params : Params)
    (hstep : 0 < params.simulation_step_size) :
    ∃ tr, simulate T p params = some tr := by
  have hG : (0:ℚ) < G := by norm_num [G]
  have hGuard : ∀ t : ℚ, 0 < t →
      loopCond (didHitWall T p params) (tAtWall T p params) t
        ((position p.velocity (T.cos p.angle) (T.sin p.angle) t).y) →
      t < (if didHitWall T p params then tAtWall T p params
        else 2 * p.velocity * T.sin p.angle / G) := by
    intro t ht hcond
    rcases hcond with h0 | ⟨hh, hlt⟩ | ⟨hh, hy⟩
    · exact absurd h0 (ne_of_gt ht)
    · rw [hh]; simpa using hlt
    · rw [hh]
      rw [position_y_eq] at hy
      have : t < 2 * p.velocity * T.sin p.angle / G := by
        rw [lt_div_iff₀ hG]
        nlinarith
      simpa using this
  obtain ⟨l, hl⟩ := buildPath_total_aux params.simulation_step_size
    (tAtWall T p params) p.velocity (T.cos p.angle) (T.sin p.angle) _
    (didHitWall T p params) hstep hGuard
    (fuelFor params.simulation_step_size (tAtWall T p params)
      (2 * p.velocity * T.sin p.angle / G)) 0 0 le_rfl
    (position_y_zero _ _ _).symm
    (fun _ => by unfold fuelFor; split <;> omega)
    (fun h => absurd h (lt_irrefl 0))
  exact ⟨⟨l⟩, by rw [simulate_eq, hl]; rfl⟩

/-- The loop's result does not depend on the amount of (sufficient) fuel. -/
lemma buildPath_unique (step tW velocity cosTheta sinTheta : ℚ) (hit : Bool) :
    ∀ (fuel₁ fuel₂ : ℕ) (t y : ℚ) (l₁ l₂ : List Coordinates),
      buildPath step hit tW velocity cosTheta sinTheta fuel₁ t y = some l₁ →
      buildPath step hit tW velocity cosTheta sinTheta fuel₂ t y = some l₂ →
      l₁ = l₂ := by
  intro fuel₁
  induction fuel₁ with
  | zero =>
    intro fuel₂ t y l₁ l₂ h₁ h₂
    by_cases hc : loopCond hit tW t y
    · rw [buildPath, if_pos hc] at h₁
      exact absurd h₁ (by simp)
    · rw [buildPath_stop _ hc] at h₁ h₂
      have e₁ := Option.some.inj h₁
      have e₂ := Option.some.inj h₂
      rw [← e₁, ← e₂]
  | succ f ih =>
    intro fuel₂ t y l₁ l₂ h₁ h₂
    by_cases hc : loopCond hit tW t y
    · cases fuel₂ with
      | zero =>
        rw [buildPath, if_pos hc] at h₂
        exact absurd h₂ (by simp)
      | succ f₂ =>
        rw [buildPath_go _ hc] at h₁ h₂
        obtain ⟨l₁', hl₁, rfl⟩ := Option.map_eq_some'.mp h₁
        obtain ⟨l₂', hl₂, rfl⟩ := Option.map_eq_some'.mp h₂
        rw [ih f₂ _ _ _ _ hl₁ hl₂]
    · rw [buildPath_stop _ hc] at h₁ h₂
      have e₁ := Option.some.inj h₁
      have e₂ := Option.some.inj h₂
      rw [← e₁, ← e₂]

/-- In the full-arc branch (`hit = false`) the loop never reads the wall
time. -/
lemma buildPath_false_tW (step tW₁ tW₂ velocity cosTheta sinTheta : ℚ) :
    ∀ (fuel : ℕ) (t y : ℚ),
      buildPath step false tW₁ velocity cosTheta sinTheta fuel t y =
      buildPath step false tW₂ velocity cosTheta sinTheta fuel t y := by
  have hiff : ∀ t y : ℚ, loopCond false tW₁ t y ↔ loopCond false tW₂ t y := by
    intro t y; rw [loopCond_false_iff, loopCond_false_iff]
  intro fuel
  induction fuel with
  | zero =>
    intro t y
    simp only [buildPath]
    exact if_congr (hiff t y) rfl rfl
  | succ f ih =>
    intro t y
    simp only [buildPath]
    rw [ih]
    exact if_congr (hiff t y) rfl rfl

/-! ## Sign helpers for the wall decision -/

lemma coordsAtWall_y_nonpos (T : Trig) (p : FiringPlan) (params : Params)
    (ht : tAtWall T p params ≤ 0) (hvs : 0 < p.velocity * T.sin p.angle) :
    (coordsAtWall T p params).y ≤ 0 := by
  have hG : (0:ℚ) < G := by norm_num [G]
  rw [coordsAtWall, position_y_eq]
  nlinarith [mul_self_nonneg (tAtWall T p params)]

lemma didHitWall_false_of_nonpos (T : Trig) (p : FiringPlan) (params : Params)
    (h : (coordsAtWall T p params).y ≤ 0) : didHitWall T p params = false := by
  rw [didHitWall, isPositive, decide_eq_false (not_lt.mpr h), Bool.false_and]

lemma tAtWall_pos_of_hit (T : Trig) (p : FiringPlan) (params : Params)
    (hhit : didHitWall T p params = true)
    (hvs : 0 < p.velocity * T.sin p.angle) : 0 < tAtWall T p params := by
  by_contra h
  push_neg at h
  have := didHitWall_false_of_nonpos T p params (coordsAtWall_y_nonpos T p params h hvs)
  rw [this] at hhit
  exact Bool.false_ne_true hhit

lemma velocity_cos_pos (T : Trig) (p : FiringPlan) (params : Params)
    (htW : 0 < tAtWall T p params) (hd : 0 < params.wall_distance) :
    0 < p.velocity * T.cos p.angle := by
  rcases lt_trichotomy (p.velocity * T.cos p.angle) 0 with h | h | h
  · rw [tAtWall] at htW
    exact absurd htW (not_lt.mpr (le_of_lt (div_neg_of_pos_of_neg hd h)))
  · rw [tAtWall, h, div_zero] at htW
    exact absurd htW (lt_irrefl 0)
  · exact h

lemma tAtWall_mul (T : Trig) (p : FiringPlan) (params : Params)
    (h : p.velocity * T.cos p.angle ≠ 0) :
    tAtWall T p params * (p.velocity * T.cos p.angle) = params.wall_distance := by
  rw [tAtWall]
  exact div_mul_cancel₀ _ h

lemma getLast?_eq_get {α : Type _} (l : List α) (h : 0 < l.length) :
    l.getLast? = some (l.get ⟨l.length - 1, by omega⟩) := by
  rw [List.getLast?_eq_getElem?, List.getElem?_eq_getElem (by omega)]
  rfl

/-! ## Claim theorems for the simulator -/

/-- C1 counterexample: with cos θ = 3/5, sin θ = 4/5, speed 1 and wall distance
32/327, the height at the wall is exactly 0, so the claimed predicate
`0 ≤ y(t_wall) < wall_height` holds, yet `simulate`'s decision flag is false
(the code tests `y(t_wall) > 0` strictly), sending the flight to the full-arc
branch instead of the claimed stop-at-wall branch. -/
theorem wall_decision_boundary_cx :
    0 ≤ (coordsAtWall Tpos planOne c1Params).y ∧
    (coordsAtWall Tpos planOne c1Params).y < c1Params.wall_height ∧
    didHitWall Tpos planOne c1Params = false := by
  refine ⟨?_, ?_, didHitWall_c1⟩
  · rw [coordsAtWall_c1]
  · rw [coordsAtWall_c1]; norm_num [c1Params]

/-- C1 (amended): `simulate` decides the wall interaction by the strict
predicate `0 < y(t_wall) < wall_height` — strictly above ground level, not
"at or above" — and otherwise takes the full unobstructed-arc branch. -/
theorem wall_decision_strict (T : Trig) (p : FiringPlan) (params : Params) :
    didHitWall T p params = true ↔
      (0 < (coordsAtWall T p params).y ∧
        (coordsAtWall T p params).y < params.wall_height) := by
  rw [didHitWall, isPositive]
  simp [Bool.and_eq_true, decide_eq_true_eq]

/-- C2 counterexample: with a very near wall (`wall_distance = 16/327`) and a
coarse step, the wall is reached while rising (`did_hit_wall` holds), yet the
one recorded sample lies at `x = 3/5 > 16/327`: the last horizontal
coordinate of a wall-stopping shot EXCEEDS the wall distance. -/
theorem clearing_overshoots_wall_cx :
    didHitWall Tpos planOne c2Params = true ∧
    simulate Tpos planOne c2Params = some ⟨[⟨3/5, -821/200⟩]⟩ ∧
    c2Params.wall_distance < 3/5 := by
  exact ⟨didHitWall_c2, simulate_c2, by norm_num [c2Params]⟩

/-- C2 (amended): when the shot takes the stop-at-wall branch, every sample
time is at most `t_wall + step`, and the last sample overshoots the wall by
less than one step's horizontal advance:
`wall_distance ≤ x_last < wall_distance + v·cosθ·step`. -/
theorem clearing_stops_at_wall (T : Trig) (p : FiringPlan) (params : Params)
    (hv : 0 < p.velocity) (hs : 0 < T.sin p.angle)
    (hstep : 0 < params.simulation_step_size) (hd : 0 < params.wall_distance)
    (hhit : didHitWall T p params = true) :
    ∃ tr : Trajectory, simulate T p params = some tr ∧ tr.path ≠ [] ∧
      (∀ j (hj : j < tr.path.length),
        tr.path.get ⟨j, hj⟩ =
          position p.velocity (T.cos p.angle) (T.sin p.angle)
            (((j + 1 : ℕ) : ℚ) * params.simulation_step_size) ∧
        ((j + 1 : ℕ) : ℚ) * params.simulation_step_size ≤
          tAtWall T p params + params.simulation_step_size) ∧
      ∃ last, tr.path.getLast? = some last ∧
        params.wall_distance ≤ last.x ∧
        last.x < params.wall_distance +
          p.velocity * T.cos p.angle * params.simulation_step_size := by
  have hvs : 0 < p.velocity * T.sin p.angle := mul_pos hv hs
  have htW : 0 < tAtWall T p params := tAtWall_pos_of_hit T p params hhit hvs
  have hvc : 0 < p.velocity * T.cos p.angle := velocity_cos_pos T p params htW hd
  obtain ⟨tr, htr⟩ := simulate_total T p params hstep
  have htr' := htr
  rw [simulate_eq] at htr'
  obtain ⟨l, hl, htr2⟩ := Option.map_eq_some'.mp htr'
  obtain ⟨A, B, C⟩ := buildPath_spec params.simulation_step_size (tAtWall T p params)
    p.velocity (T.cos p.angle) (T.sin p.angle) (didHitWall T p params) _ 0 0 l
    (position_y_zero _ _ _).symm hl
  simp only [zero_add] at A B C
  subst htr2
  have hne : l ≠ [] := by
    intro h; subst h
    simp only [List.length_nil, Nat.cast_zero, zero_mul] at C
    exact C (Or.inl rfl)
  have hn1 : 1 ≤ l.length := List.length_pos.mpr hne
  rw [hhit, loopCond_true_iff] at C
  push_neg at C
  obtain ⟨hC1, hC2⟩ := C
  have hcast : ((l.length - 1 : ℕ) : ℚ) = (l.length : ℚ) - 1 := by
    push_cast [Nat.cast_sub hn1]; ring
  have hupper : (l.length : ℚ) * params.simulation_step_size <
      tAtWall T p params + params.simulation_step_size := by
    have hB := B (l.length - 1) (by omega)
    rw [hhit, loopCond_true_iff, hcast] at hB
    rcases hB with h | h
    · have hl1 : (l.length : ℚ) = 1 := by
        rcases mul_eq_zero.mp h with h' | h'
        · linarith
        · exact absurd h' (ne_of_gt hstep)
      rw [hl1, one_mul]
      linarith
    · nlinarith
  refine ⟨⟨l⟩, htr, hne, ?_, ?_⟩
  · intro j hj
    refine ⟨A j hj, ?_⟩
    have hle : ((j + 1 : ℕ) : ℚ) ≤ (l.length : ℚ) := by exact_mod_cast hj
    have := mul_le_mul_of_nonneg_right hle (le_of_lt hstep)
    linarith
  · have hget : l.get ⟨l.length - 1, by omega⟩ =
        position p.velocity (T.cos p.angle) (T.sin p.angle)
          ((l.length : ℚ) * params.simulation_step_size) := by
      rw [A (l.length - 1) (by omega)]
      congr 2
      rw [Nat.sub_add_cancel hn1]
    have hlast : l.getLast? = some (position p.velocity (T.cos p.angle)
        (T.sin p.angle) ((l.length : ℚ) * params.simulation_step_size)) := by
      rw [getLast?_eq_get l (by omega), hget]
    refine ⟨_, hlast, ?_, ?_⟩
    · show params.wall_distance ≤
        (position p.velocity (T.cos p.angle) (T.sin p.angle)
          ((l.length : ℚ) * params.simulation_step_size)).x
      have hdw := tAtWall_mul T p params (ne_of_gt hvc)
      simp only [position]
      nlinarith
    · show (position p.velocity (T.cos p.angle) (T.sin p.angle)
          ((l.length : ℚ) * params.simulation_step_size)).x <
        params.wall_distance + p.velocity * T.cos p.angle * params.simulation_step_size
      have hdw := tAtWall_mul T p params (ne_of_gt hvc)
      simp only [position]
      nlinarith

/-- C3 counterexample: with the wall beyond the landing point (full-arc
branch) and a step that divides the landing time, the recorded arc ends at a
sample whose vertical coordinate is exactly 0 — a non-negative height — even
though the next sample would be strictly below ground: sampling does NOT
continue while the vertical coordinate "remains non-negative"; it stops as
soon as it is non-positive. -/
theorem full_arc_boundary_cx :
    didHitWall Tpos planOne c3Params = false ∧
    simulate Tpos planOne c3Params = some ⟨[⟨16/327, 32/981⟩, ⟨32/327, 0⟩]⟩ ∧
    (⟨[⟨16/327, 32/981⟩, ⟨32/327, 0⟩]⟩ : Trajectory).path.getLast? =
      some ⟨32/327, 0⟩ ∧
    (position planOne.velocity (Tpos.cos planOne.angle) (Tpos.sin planOne.angle)
      (3 * c3Params.simulation_step_size)).y < 0 := by
  refine ⟨didHitWall_c3, simulate_c3, rfl, ?_⟩
  norm_num [position, Tpos, planOne, c3Params, G]

/-- C3 (amended): when the wall test fails, `simulate` records the full
unobstructed arc independently of the wall parameters: samples continue while
the vertical coordinate remains strictly positive, the trajectory ends at the
first sample whose vertical coordinate is non-positive, and the same
trajectory results for any wall placement that also fails the wall test. -/
theorem full_arc_characterisation (T : Trig) (p : FiringPlan) (params : Params)
    (hstep : 0 < params.simulation_step_size)
    (hhit : didHitWall T p params = false) :
    ∃ tr : Trajectory, simulate T p params = some tr ∧ tr.path ≠ [] ∧
      (∀ j (hj : j < tr.path.length), j + 1 < tr.path.length →
        0 < (tr.path.get ⟨j, hj⟩).y) ∧
      (∃ last, tr.path.getLast? = some last ∧ last.y ≤ 0) ∧
      (∀ params' : Params,
        params'.simulation_step_size = params.simulation_step_size →
        didHitWall T p params' = false → simulate T p params' = some tr) := by
  obtain ⟨tr, htr⟩ := simulate_total T p params hstep
  have htr' := htr
  rw [simulate_eq] at htr'
  obtain ⟨l, hl, htr2⟩ := Option.map_eq_some'.mp htr'
  rw [hhit] at hl
  obtain ⟨A, B, C⟩ := buildPath_spec params.simulation_step_size (tAtWall T p params)
    p.velocity (T.cos p.angle) (T.sin p.angle) false _ 0 0 l
    (position_y_zero _ _ _).symm hl
  simp only [zero_add] at A B C
  subst htr2
  have hne : l ≠ [] := by
    intro h; subst h
    simp only [List.length_nil, Nat.cast_zero, zero_mul] at C
    exact C (Or.inl rfl)
  have hn1 : 1 ≤ l.length := List.length_pos.mpr hne
  rw [loopCond_false_iff] at C
  push_neg at C
  obtain ⟨hC1, hC2⟩ := C
  refine ⟨⟨l⟩, htr, hne, ?_, ?_, ?_⟩
  · intro j hj hj'
    rw [A j hj]
    have hB := B (j + 1) hj'
    rw [loopCond_false_iff] at hB
    have hpos : (0:ℚ) < ((j + 1 : ℕ) : ℚ) * params.simulation_step_size := by
      apply mul_pos _ hstep
      exact_mod_cast Nat.succ_pos j
    rcases hB with h | h
    · push_cast at h hpos
      exact absurd h (ne_of_gt hpos)
    · exact_mod_cast h
  · have hget : l.get ⟨l.length - 1, by omega⟩ =
        position p.velocity (T.cos p.angle) (T.sin p.angle)
          ((l.length : ℚ) * params.simulation_step_size) := by
      rw [A (l.length - 1) (by omega)]
      congr 2
      rw [Nat.sub_add_cancel hn1]
    refine ⟨_, by rw [getLast?_eq_get l (by omega), hget], hC2⟩
  · intro params' hstep' hhit'
    obtain ⟨tr', htr0⟩ := simulate_total T p params' (by rw [hstep']; exact hstep)
    have htr1 := htr0
    rw [simulate_eq] at htr1
    obtain ⟨l', hl', htr3⟩ := Option.map_eq_some'.mp htr1
    rw [hhit', hstep'] at hl'
    rw [buildPath_false_tW params.simulation_step_size (tAtWall T p params')
      (tAtWall T p params) p.velocity (T.cos p.angle) (T.sin p.angle)] at hl'
    have hll : l' = l := buildPath_unique params.simulation_step_size
      (tAtWall T p params) p.velocity (T.cos p.angle) (T.sin p.angle) false
      _ _ 0 0 l' l hl' hl
    rw [htr0, ← htr3, hll]

/-- C4 counterexample: `wall_distance = 0` triggers no input-validation
failure: the wall test simply evaluates to false and `simulate` silently
returns the ordinary full-arc trajectory. -/
theorem no_validation_cx :
    c4Params.wall_distance = 0 ∧
    didHitWall Tpos planOne c4Params = false ∧
    simulate Tpos planOne c4Params = some trBase := by
  exact ⟨rfl, didHitWall_c4, simulate_c4⟩

/-- C4 (amended): `simulate` performs no input validation.  With
`wall_distance = 0`, `cos(angle) = 0`, or a negative wall distance (forward
launch), the time-to-wall computation yields a non-positive height at the
wall, the wall test is false, and `simulate` silently returns the finite full
unobstructed arc instead of signalling a precondition violation. -/
theorem degenerate_inputs_silent (T : Trig) (p : FiringPlan) (params : Params)
    (hstep : 0 < params.simulation_step_size)
    (hdc : params.wall_distance = 0 ∨ T.cos p.angle = 0 ∨
      (params.wall_distance < 0 ∧ 0 < p.velocity * T.cos p.angle ∧
        0 < p.velocity * T.sin p.angle)) :
    didHitWall T p params = false ∧ ∃ tr, simulate T p params = some tr := by
  refine ⟨?_, simulate_total T p params hstep⟩
  apply didHitWall_false_of_nonpos
  rcases hdc with h | h | ⟨h1, h2, h3⟩
  · have htW : tAtWall T p params = 0 := by rw [tAtWall, h, zero_div]
    rw [coordsAtWall, htW, position_y_zero]
  · have htW : tAtWall T p params = 0 := by rw [tAtWall, h, mul_zero, div_zero]
    rw [coordsAtWall, htW, position_y_zero]
  · have htW : tAtWall T p params < 0 := by
      rw [tAtWall]
      exact div_neg_of_neg_of_pos h1 h2
    exact coordsAtWall_y_nonpos T p params (le_of_lt htW) h3

/-- C10: a plan whose angle lies strictly between π/2 and π (trigonometric
signature: cos θ < 0 and sin θ > 0) always takes the full-arc branch, every
recorded sample has a strictly negative horizontal coordinate, and the
fitness is strictly negative — so such a plan can never beat the best-ever
tracker, which starts at 0. -/
theorem backward_launch_negative_fitness (T : Trig) (p : FiringPlan)
    (params : Params) (hc : T.cos p.angle < 0) (hs : 0 < T.sin p.angle)
    (hv : 0 < p.velocity) (hstep : 0 < params.simulation_step_size)
    (hd : 0 < params.wall_distance) :
    didHitWall T p params = false ∧
    ∃ (tr : Trajectory) (f : ℚ), simulate T p params = some tr ∧
      evaluate T p params = some f ∧ tr.path ≠ [] ∧
      (∀ coord ∈ tr.path, coord.x < 0) ∧ f < 0 := by
  have hvs : 0 < p.velocity * T.sin p.angle := mul_pos hv hs
  have htW : tAtWall T p params < 0 := by
    rw [tAtWall]
    exact div_neg_of_pos_of_neg hd (mul_neg_of_pos_of_neg hv hc)
  have hhit : didHitWall T p params = false :=
    didHitWall_false_of_nonpos T p params
      (coordsAtWall_y_nonpos T p params (le_of_lt htW) hvs)
  obtain ⟨tr, htr⟩ := simulate_total T p params hstep
  have htr' := htr
  rw [simulate_eq] at htr'
  obtain ⟨l, hl, htr2⟩ := Option.map_eq_some'.mp htr'
  obtain ⟨A, B, C⟩ := buildPath_spec params.simulation_step_size (tAtWall T p params)
    p.velocity (T.cos p.angle) (T.sin p.angle) (didHitWall T p params) _ 0 0 l
    (position_y_zero _ _ _).symm hl
  simp only [zero_add] at A B C
  subst htr2
  have hne : l ≠ [] := by
    intro h; subst h
    simp only [List.length_nil, Nat.cast_zero, zero_mul] at C
    exact C (Or.inl rfl)
  have hn1 : 1 ≤ l.length := List.length_pos.mpr hne
  have hxneg : ∀ j (hj : j < l.length), (l.get ⟨j, hj⟩).x < 0 := by
    intro j hj
    rw [A j hj]
    have ht : (0:ℚ) < ((j + 1 : ℕ) : ℚ) * params.simulation_step_size := by
      apply mul_pos _ hstep
      exact_mod_cast Nat.succ_pos j
    simp only [position]
    exact mul_neg_of_pos_of_neg (mul_pos hv ht) hc
  refine ⟨hhit, ⟨l⟩, Trajectory.distance ⟨l⟩, htr, ?_, hne, ?_, ?_⟩
  · simp only [evaluate, htr, Option.map_some']
  · intro coord hmem
    obtain ⟨⟨j, hj⟩, hco⟩ := List.mem_iff_get.mp hmem
    rw [← hco]
    exact hxneg j hj
  · show Trajectory.distance ⟨l⟩ < 0
    rw [Trajectory.distance]
    have := getLast?_eq_get l (by omega)
    simp only at this
    rw [this]
    simp only [Option.map_some', Option.getD_some]
    exact hxneg _ _

/-- C2 witness: the amended stop-at-wall theorem instantiated at the concrete
wall-hitting input. -/
theorem clearing_stops_at_wall_witness :
    (0:ℚ) < planOne.velocity ∧ (0:ℚ) < Tpos.sin planOne.angle ∧
    (0:ℚ) < c2Params.simulation_step_size ∧ (0:ℚ) < c2Params.wall_distance ∧
    didHitWall Tpos planOne c2Params = true ∧
    ∃ tr : Trajectory, simulate Tpos planOne c2Params = some tr ∧
      tr.path ≠ [] ∧ ∃ last, tr.path.getLast? = some last ∧
        c2Params.wall_distance ≤ last.x := by
  have h1 : (0:ℚ) < planOne.velocity := by norm_num [planOne]
  have h2 : (0:ℚ) < Tpos.sin planOne.angle := by norm_num [Tpos]
  have h3 : (0:ℚ) < c2Params.simulation_step_size := by norm_num [c2Params]
  have h4 : (0:ℚ) < c2Params.wall_distance := by norm_num [c2Params]
  obtain ⟨tr, ha, hb, _, last, hl1, hl2, _⟩ :=
    clearing_stops_at_wall Tpos planOne c2Params h1 h2 h3 h4 didHitWall_c2
  exact ⟨h1, h2, h3, h4, didHitWall_c2, tr, ha, hb, last, hl1, hl2⟩

/-- C3 witness: the amended full-arc theorem instantiated at the concrete
non-hitting input. -/
theorem full_arc_witness :
    (0:ℚ) < baseParams.simulation_step_size ∧
    didHitWall Tpos planOne baseParams = false ∧
    ∃ tr : Trajectory, simulate Tpos planOne baseParams = some tr ∧
      tr.path ≠ [] ∧ ∃ last, tr.path.getLast? = some last ∧ last.y ≤ 0 := by
  have h1 : (0:ℚ) < baseParams.simulation_step_size := by norm_num [baseParams]
  obtain ⟨tr, ha, hb, _, hc, _⟩ :=
    full_arc_characterisation Tpos planOne baseParams h1 didHitWall_base
  exact ⟨h1, didHitWall_base, tr, ha, hb, hc⟩

/-- C4 witness: the amended no-validation theorem instantiated at
`wall_distance = 0`. -/
theorem degenerate_inputs_witness :
    (0:ℚ) < c4Params.simulation_step_size ∧ c4Params.wall_distance = 0 ∧
    (didHitWall Tpos planOne c4Params = false ∧
      ∃ tr, simulate Tpos planOne c4Params = some tr) := by
  have h1 : (0:ℚ) < c4Params.simulation_step_size := by norm_num [c4Params]
  exact ⟨h1, rfl, degenerate_inputs_silent Tpos planOne c4Params h1 (Or.inl rfl)⟩

/-- C10 witness: the backward-launch theorem instantiated with
cos θ = −3/5, sin θ = 4/5. -/
theorem backward_launch_witness :
    Tneg.cos planOne.angle < 0 ∧ (0:ℚ) < Tneg.sin planOne.angle ∧
    (0:ℚ) < planOne.velocity ∧ (0:ℚ) < baseParams.simulation_step_size ∧
    (0:ℚ) < baseParams.wall_distance ∧
    (didHitWall Tneg planOne baseParams = false ∧
      ∃ (tr : Trajectory) (f : ℚ), simulate Tneg planOne baseParams = some tr ∧
        evaluate Tneg planOne baseParams = some f ∧ tr.path ≠ [] ∧
        (∀ coord ∈ tr.path, coord.x < 0) ∧ f < 0) := by
  have h1 : Tneg.cos planOne.angle < 0 := by norm_num [Tneg]
  have h2 : (0:ℚ) < Tneg.sin planOne.angle := by norm_num [Tneg]
  have h3 : (0:ℚ) < planOne.velocity := by norm_num [planOne]
  have h4 : (0:ℚ) < baseParams.simulation_step_size := by norm_num [baseParams]
  have h5 : (0:ℚ) < baseParams.wall_distance := by norm_num [baseParams]
  exact ⟨h1, h2, h3, h4, h5,
    backward_launch_negative_fitness Tneg planOne baseParams h1 h2 h3 h4 h5⟩

/-! ## Facts about the optimiser -/

lemma advance_add (g : Rng) (a b : ℕ) :
    advance (advance g a) b = advance g (a + b) := by
  induction a generalizing g with
  | zero => rw [advance, Nat.zero_add]
  | succ a ih =>
    show advance (advance (next g).2 a) b = _
    rw [ih]
    show advance (next g).2 (a + b) = advance g (a + 1 + b)
    have : a + 1 + b = (a + b) + 1 := by omega
    rw [this]
    rfl

lemma mutate_snd (p : FiringPlan) (g : Rng) : (mutate p g).2 = advance g 2 := rfl

/-- Exact characterisation of the population write-back loop started at slot
index `i`: slots with `i + j ≤ 1` copy the ranked plan, the rest mutate the
plan at the same rank position, with the random stream advanced by two draws
per preceding mutation. -/
lemma nextPlans_spec (pop : List Individual) :
    ∀ (i : ℕ) (g : Rng),
      ((nextPlans i pop g).1).length = pop.length ∧
      ∀ j (hj : j < pop.length) (hj' : j < ((nextPlans i pop g).1).length),
        ((nextPlans i pop g).1).get ⟨j, hj'⟩ =
          if i + j ≤ 1 then (pop.get ⟨j, hj⟩).plan
          else (mutate (pop.get ⟨j, hj⟩).plan
            (advance g (2 * ((i + j) - max i 2)))).1 := by
  induction pop with
  | nil =>
    intro i g
    refine ⟨rfl, ?_⟩
    intro j hj
    simp at hj
  | cons ind rest ih =>
    intro i g
    by_cases hi : i ≤ 1
    · have hne : nextPlans i (ind :: rest) g =
          (ind.plan :: (nextPlans (i + 1) rest g).1, (nextPlans (i + 1) rest g).2) := by
        rw [nextPlans, if_pos hi]
      rw [hne]
      obtain ⟨ihlen, ihget⟩ := ih (i + 1) g
      refine ⟨by simpa using ihlen, ?_⟩
      intro j hj hj'
      cases j with
      | zero =>
        show ind.plan = _
        rw [if_pos (by omega : i + 0 ≤ 1)]
        rfl
      | succ k =>
        have hk : k < rest.length := by simpa using hj
        have hk' : k < ((nextPlans (i + 1) rest g).1).length := by
          rw [ihlen]; exact hk
        show ((nextPlans (i + 1) rest g).1).get ⟨k, hk'⟩ = _
        rw [ihget k hk hk']
        have harg : 2 * ((i + 1 + k) - max (i + 1) 2) =
            2 * ((i + (k + 1)) - max i 2) := by omega
        by_cases hc : i + 1 + k ≤ 1
        · rw [if_pos hc, if_pos (by omega : i + (k + 1) ≤ 1)]
          rfl
        · rw [if_neg hc, if_neg (by omega : ¬ i + (k + 1) ≤ 1), harg]
          rfl
    · have hne : nextPlans i (ind :: rest) g =
          ((mutate ind.plan g).1 ::
              (nextPlans (i + 1) rest (mutate ind.plan g).2).1,
            (nextPlans (i + 1) rest (mutate ind.plan g).2).2) := by
        rw [nextPlans, if_neg hi]
      rw [hne]
      obtain ⟨ihlen, ihget⟩ := ih (i + 1) (mutate ind.plan g).2
      refine ⟨by simpa using ihlen, ?_⟩
      intro j hj hj'
      cases j with
      | zero =>
        show (mutate ind.plan g).1 = _
        rw [if_neg (by omega : ¬ i + 0 ≤ 1)]
        have : 2 * ((i + 0) - max i 2) = 0 := by omega
        rw [this]
        rfl
      | succ k =>
        have hk : k < rest.length := by simpa using hj
        have hk' : k < ((nextPlans (i + 1) rest (mutate ind.plan g).2).1).length := by
          rw [ihlen]; exact hk
        show ((nextPlans (i + 1) rest (mutate ind.plan g).2).1).get ⟨k, hk'⟩ = _
        rw [ihget k hk hk']
        rw [if_neg (by omega : ¬ i + 1 + k ≤ 1), if_neg (by omega : ¬ i + (k + 1) ≤ 1)]
        rw [mutate_snd, advance_add]
        have : 2 + 2 * ((i + 1 + k) - max (i + 1) 2) =
            2 * ((i + (k + 1)) - max i 2) := by omega
        rw [this]
        rfl

lemma generationStep_eq_some (T : Trig) (params : Params) (r : ℕ) (st : OptState)
    (pop : List Individual) (b : Individual)
    (hpop : evalPop T params st.plans = some pop)
    (hb : (rank pop).head? = some b) :
    generationStep T params r st = some
      ⟨(nextPlans 0 (rank pop) st.rng).1,
        if st.best < b.fitness then b.fitness else st.best,
        if st.best < b.fitness then st.events ++ [(r, b.fitness)] else st.events,
        (nextPlans 0 (rank pop) st.rng).2⟩ := by
  rw [generationStep, hpop, Option.map_some']
  simp only [hb]
  by_cases hlt : st.best < b.fitness
  · simp [hlt]
  · simp [hlt]

lemma generationStep_eq_none (T : Trig) (params : Params) (r : ℕ) (st : OptState)
    (pop : List Individual)
    (hpop : evalPop T params st.plans = some pop)
    (hb : (rank pop).head? = none) :
    generationStep T params r st = some
      ⟨(nextPlans 0 (rank pop) st.rng).1, st.best, st.events,
        (nextPlans 0 (rank pop) st.rng).2⟩ := by
  rw [generationStep, hpop, Option.map_some']
  simp only [hb]

/-- Case analysis on the best-ever tracker update of one generation. -/
lemma generationStep_cases (T : Trig) (params : Params) (r : ℕ)
    (st st' : OptState) (h : generationStep T params r st = some st') :
    (st'.best = st.best ∧ st'.events = st.events) ∨
    ∃ pop b, evalPop T params st.plans = some pop ∧
      (rank pop).head? = some b ∧ st.best < b.fitness ∧
      st'.best = b.fitness ∧ st'.events = st.events ++ [(r, b.fitness)] := by
  have h' := h
  rw [generationStep] at h'
  obtain ⟨pop, hpop, hst⟩ := Option.map_eq_some'.mp h'
  rcases hb : (rank pop).head? with _ | b
  · have heq := generationStep_eq_none T params r st pop hpop hb
    rw [h] at heq
    have hst' := Option.some.inj heq
    exact Or.inl ⟨by rw [hst'], by rw [hst']⟩
  · have heq := generationStep_eq_some T params r st pop b hpop hb
    rw [h] at heq
    have hst' := Option.some.inj heq
    by_cases hlt : st.best < b.fitness
    · refine Or.inr ⟨pop, b, hpop, hb, hlt, ?_, ?_⟩
      · rw [hst']; simp [hlt]
      · rw [hst']; simp [hlt]
    · refine Or.inl ⟨?_, ?_⟩
      · rw [hst']; simp [hlt]
      · rw [hst']; simp [hlt]

lemma generationStep_best_mono (T : Trig) (params : Params) (r : ℕ)
    (st st' : OptState) (h : generationStep T params r st = some st') :
    st.best ≤ st'.best := by
  rcases generationStep_cases T params r st st' h with ⟨h1, _⟩ | ⟨_, _, _, _, hlt, hbest, _⟩
  · rw [h1]
  · rw [hbest]; exact le_of_lt hlt

lemma runGens_zero (T : Trig) (params : Params) (r : ℕ) (st : OptState) :
    runGens T params 0 r st = some st := rfl

lemma runGens_one (T : Trig) (params : Params) (r : ℕ) (st : OptState) :
    runGens T params 1 r st =
      (generationStep T params r st).bind (runGens T params 0 (r + 1)) := rfl

lemma runGens_best_mono (T : Trig) (params : Params) :
    ∀ (n r : ℕ) (st st' : OptState),
      runGens T params n r st = some st' → st.best ≤ st'.best := by
  intro n
  induction n with
  | zero =>
    intro r st st' h
    rw [runGens_zero] at h
    rw [← Option.some.inj h]
  | succ n ih =>
    intro r st st' h
    rw [runGens] at h
    obtain ⟨st₁, h₁, h₂⟩ := Option.bind_eq_some.mp h
    exact le_trans (generationStep_best_mono T params r st st₁ h₁) (ih (r + 1) st₁ st' h₂)

/-! ## Claim theorems for the optimiser -/

/-- C5: after ranking, the next population's slots 0 and 1 copy the top-2
ranked plans unchanged (elitism, k = 2), and every slot `j ≥ 2` holds the
mutation of the plan at rank position `j` of the current ranked population
(index-aligned, not randomly chosen), with the random stream advanced by two
draws per preceding mutation. -/
theorem elitism_and_rank_mutation (T : Trig) (params : Params) (r : ℕ)
    (st st' : OptState) (h : generationStep T params r st = some st') :
    ∃ pop, evalPop T params st.plans = some pop ∧
      st'.plans.length = (rank pop).length ∧
      (∀ j, j ≤ 1 → st'.plans[j]? = ((rank pop)[j]?).map Individual.plan) ∧
      (∀ j, 2 ≤ j → st'.plans[j]? = ((rank pop)[j]?).map
        (fun ind => (mutate ind.plan (advance st.rng (2 * (j - 2)))).1)) := by
  rw [generationStep] at h
  obtain ⟨pop, hpop, hst⟩ := Option.map_eq_some'.mp h
  have hplans : st'.plans = (nextPlans 0 (rank pop) st.rng).1 := by
    rw [← hst]
  obtain ⟨hlen, hget⟩ := nextPlans_spec (rank pop) 0 st.rng
  refine ⟨pop, hpop, by rw [hplans]; exact hlen, ?_, ?_⟩
  · intro j hj1
    rw [hplans]
    by_cases hjl : j < (rank pop).length
    · have hj2 : j < ((nextPlans 0 (rank pop) st.rng).1).length := by
        rw [hlen]; exact hjl
      rw [List.getElem?_eq_getElem hj2, List.getElem?_eq_getElem hjl]
      have hg := hget j hjl hj2
      rw [if_pos (by omega : 0 + j ≤ 1)] at hg
      rw [List.get_eq_getElem] at hg
      simp only [Option.map_some']
      rw [hg]
      rfl
    · rw [List.getElem?_eq_none (by rw [hlen]; omega),
        List.getElem?_eq_none (by omega)]
      rfl
  · intro j hj2'
    rw [hplans]
    by_cases hjl : j < (rank pop).length
    · have hj2 : j < ((nextPlans 0 (rank pop) st.rng).1).length := by
        rw [hlen]; exact hjl
      rw [List.getElem?_eq_getElem hj2, List.getElem?_eq_getElem hjl]
      have hg := hget j hjl hj2
      rw [if_neg (by omega : ¬ 0 + j ≤ 1)] at hg
      have harg : 2 * ((0 + j) - max 0 2) = 2 * (j - 2) := by omega
      rw [harg] at hg
      rw [List.get_eq_getElem] at hg
      simp only [Option.map_some']
      rw [hg]
      rfl
    · rw [List.getElem?_eq_none (by rw [hlen]; omega),
        List.getElem?_eq_none (by omega)]
      rfl

/-- C7: the best-ever tracker starts at 0, is non-decreasing over any run of
generations, and (together with the recorded event list) changes only when
the top-ranked individual's fitness strictly exceeds it, in which case the
event is tagged with the generation index. -/
theorem best_tracker_monotone :
    (∀ (g : Rng) (params : Params), (mainInit g params).best = 0) ∧
    (∀ (T : Trig) (params : Params) (n r : ℕ) (st st' : OptState),
      runGens T params n r st = some st' → st.best ≤ st'.best) ∧
    (∀ (T : Trig) (params : Params) (r : ℕ) (st st' : OptState),
      generationStep T params r st = some st' →
        (st'.best = st.best ∧ st'.events = st.events) ∨
        ∃ pop b, evalPop T params st.plans = some pop ∧
          (rank pop).head? = some b ∧ st.best < b.fitness ∧
          st'.best = b.fitness ∧ st'.events = st.events ++ [(r, b.fitness)]) := by
  refine ⟨fun g params => rfl, ?_, ?_⟩
  · intro T params n r st st' h
    exact runGens_best_mono T params n r st st' h
  · intro T params r st st' h
    exact generationStep_cases T params r st st' h

/-- C9: the whole run is a function of its random stream and parameters: two
runs over pointwise-equal streams (the model of equal seeds) produce the same
result — in particular identical event sequences and final populations. -/
theorem run_deterministic (T : Trig) (params : Params) (g₁ g₂ : Rng)
    (h : ∀ k, g₁ k = g₂ k) :
    mainRun T params g₁ = mainRun T params g₂ := by
  have hg : g₁ = g₂ := funext h
  rw [hg]

/-- C9 witness. -/
theorem run_deterministic_witness :
    (∀ k, rngHalf k = rngHalf k) ∧
    mainRun Tpos baseParams rngHalf = mainRun Tpos baseParams rngHalf :=
  ⟨fun _ => rfl, run_deterministic Tpos baseParams rngHalf rngHalf (fun _ => rfl)⟩

/-- C6: the mutation operator perturbs the speed by `U₁ − 1/2` with a floor of
1/10, clamps the angle to `[1/10, PI/2]`, and therefore always produces
values satisfying the constructor's assertions. -/
theorem mutate_clamps (plan : FiringPlan) (g : Rng)
    (_h0 : 0 ≤ g 0) (_h0' : g 0 < 1) (_h1 : 0 ≤ g 1) (_h1' : g 1 < 1) :
    (mutate plan g).1.velocity = max (plan.velocity + g 0 - 1/2) (1/10) ∧
    1/10 ≤ (mutate plan g).1.velocity ∧
    (mutate plan g).1.angle = min (max (plan.angle + g 1 - 1/2) (1/10)) (PI / 2) ∧
    1/10 ≤ (mutate plan g).1.angle ∧ (mutate plan g).1.angle ≤ PI / 2 ∧
    FiringPlan.newValid (mutate plan g).1.velocity (mutate plan g).1.angle := by
  have hv : (mutate plan g).1.velocity = max (plan.velocity + g 0 - 1/2) (1/10) := rfl
  have ha : (mutate plan g).1.angle =
      min (max (plan.angle + g 1 - 1/2) (1/10)) (PI / 2) := rfl
  have hPI : (1:ℚ)/10 ≤ PI / 2 := by norm_num [PI]
  have hPI2 : PI / 2 < PI := by norm_num [PI]
  have hvge : 1/10 ≤ (mutate plan g).1.velocity := by
    rw [hv]; exact le_max_right _ _
  have hage : 1/10 ≤ (mutate plan g).1.angle := by
    rw [ha]; exact le_min (le_max_right _ _) hPI
  have hale : (mutate plan g).1.angle ≤ PI / 2 := by
    rw [ha]; exact min_le_right _ _
  exact ⟨hv, hvge, ha, hage, hale, by linarith, by linarith, by linarith⟩

/-- C6 witness. -/
theorem mutate_clamps_witness :
    (0:ℚ) ≤ rngHalf 0 ∧ rngHalf 0 < 1 ∧ (0:ℚ) ≤ rngHalf 1 ∧ rngHalf 1 < 1 ∧
    (1/10 ≤ (mutate planOne rngHalf).1.velocity ∧
      1/10 ≤ (mutate planOne rngHalf).1.angle ∧
      (mutate planOne rngHalf).1.angle ≤ PI / 2 ∧
      FiringPlan.newValid (mutate planOne rngHalf).1.velocity
        (mutate planOne rngHalf).1.angle) := by
  have h0 : (0:ℚ) ≤ rngHalf 0 := by norm_num [rngHalf]
  have h0' : rngHalf 0 < 1 := by norm_num [rngHalf]
  have h1 : (0:ℚ) ≤ rngHalf 1 := by norm_num [rngHalf]
  have h1' : rngHalf 1 < 1 := by norm_num [rngHalf]
  obtain ⟨_, b, _, c, d, e⟩ := mutate_clamps planOne rngHalf h0 h0' h1 h1'
  exact ⟨h0, h0', h1, h1', b, c, d, e⟩

/-- C8: `evaluate` returns the horizontal coordinate of the simulated
trajectory's last sample, 0 for an empty trajectory, independently of the
samples preceding the last one. -/
theorem evaluate_last_sample :
    (∀ (T : Trig) (p : FiringPlan) (params : Params) (tr : Trajectory),
      simulate T p params = some tr → evaluate T p params = some tr.distance) ∧
    (∀ (l : List Coordinates) (c : Coordinates),
      Trajectory.distance ⟨l ++ [c]⟩ = c.x) ∧
    Trajectory.distance ⟨[]⟩ = 0 := by
  refine ⟨?_, ?_, rfl⟩
  · intro T p params tr h
    simp only [evaluate, h, Option.map_some']
  · intro l c
    rw [Trajectory.distance]
    simp [List.getLast?_concat]

/-- C8 witness. -/
theorem evaluate_last_sample_witness :
    simulate Tpos planOne baseParams = some trBase ∧
    evaluate Tpos planOne baseParams = some trBase.distance :=
  ⟨simulate_base, evaluate_last_sample.1 Tpos planOne baseParams trBase simulate_base⟩

/-! ## Concrete one-generation run (shared by the optimiser witnesses) -/

lemma evaluate_base : evaluate Tpos planOne baseParams = some (3/5) := by
  rw [evaluate, simulate_base]
  rfl

lemma evalPop_w : evalPop Tpos baseParams wSt.plans = some [indOne, indOne, indOne] := by
  show evalPop Tpos baseParams [planOne, planOne, planOne] = _
  simp only [evalPop, List.mapM_cons, List.mapM_nil, evaluate_base, Option.map_some']
  rfl

lemma rank_w : rank [indOne, indOne, indOne] = [indOne, indOne, indOne] := by
  simp [rank, insertRanked, lt_irrefl]

lemma generationStep_w :
    generationStep Tpos baseParams 0 wSt = some
      ⟨(nextPlans 0 (rank [indOne, indOne, indOne]) wSt.rng).1,
        if wSt.best < indOne.fitness then indOne.fitness else wSt.best,
        if wSt.best < indOne.fitness then wSt.events ++ [(0, indOne.fitness)]
          else wSt.events,
        (nextPlans 0 (rank [indOne, indOne, indOne]) wSt.rng).2⟩ :=
  generationStep_eq_some Tpos baseParams 0 wSt [indOne, indOne, indOne] indOne
    evalPop_w (by rw [rank_w]; rfl)

/-- C5 witness: the elitism/mutation theorem instantiated at a concrete
three-member generation. -/
theorem elitism_witness :
    ∃ st' pop, generationStep Tpos baseParams 0 wSt = some st' ∧
      evalPop Tpos baseParams wSt.plans = some pop ∧
      st'.plans.length = (rank pop).length ∧
      st'.plans[0]? = ((rank pop)[0]?).map Individual.plan ∧
      st'.plans[2]? = ((rank pop)[2]?).map
        (fun ind => (mutate ind.plan (advance wSt.rng 0)).1) := by
  obtain ⟨pop, hpop, hlen, helite, hmut⟩ :=
    elitism_and_rank_mutation Tpos baseParams 0 wSt _ generationStep_w
  refine ⟨_, pop, generationStep_w, hpop, hlen, helite 0 (by omega), ?_⟩
  have := hmut 2 (by omega)
  simpa using this

/-- C7 witness: the tracker theorem instantiated at a concrete run. -/
theorem best_tracker_witness :
    (mainInit rngHalf baseParams).best = 0 ∧
    (∃ st', runGens Tpos baseParams 1 0 wSt = some st' ∧ wSt.best ≤ st'.best) ∧
    (∃ st', generationStep Tpos baseParams 0 wSt = some st' ∧
      ((st'.best = wSt.best ∧ st'.events = wSt.events) ∨
        ∃ pop b, evalPop Tpos baseParams wSt.plans = some pop ∧
          (rank pop).head? = some b ∧ wSt.best < b.fitness ∧
          st'.best = b.fitness ∧ st'.events = wSt.events ++ [(0, b.fitness)])) := by
  have hrun : runGens Tpos baseParams 1 0 wSt = some
      ⟨(nextPlans 0 (rank [indOne, indOne, indOne]) wSt.rng).1,
        if wSt.best < indOne.fitness then indOne.fitness else wSt.best,
        if wSt.best < indOne.fitness then wSt.events ++ [(0, indOne.fitness)]
          else wSt.events,
        (nextPlans 0 (rank [indOne, indOne, indOne]) wSt.rng).2⟩ := by
    rw [runGens_one, generationStep_w]
    rfl
  exact ⟨best_tracker_monotone.1 rngHalf baseParams,
    ⟨_, hrun, best_tracker_monotone.2.1 Tpos baseParams 1 0 wSt _ hrun⟩,
    ⟨_, generationStep_w, best_tracker_monotone.2.2 Tpos baseParams 0 wSt _
      generationStep_w⟩⟩

end Balls
